import Mathlib

/-!
Verification development for the symbolic value-tracking engine in
`torchdynamo/variable_tracker.py`: tracked variables, guard propagation,
container variants, iterator stepping, the identity-memoized tree rewrite
`VariableTracker.apply`, and the copy-and-substitute mutation protocol.

Modelling conventions:
* guards are compared by identity of their `(name, kind)` pair, so a guard is
  modelled as an abstract natural number and a guard set as a `Finset`;
* a `MutableLocal` marker object is modelled by the natural number minted for
  it (`MutableLocal()` at a call site becomes an explicitly supplied fresh
  token);
* the driver `tx` is modelled by its observable effects: `replace_all`
  requests are returned as an explicit list of `(old, new)` pairs, and
  `create_proxy` is modelled as a counter that yields the next graph-node id;
* Python exceptions are split the way the code splits them: the recoverable
  `unimplemented` graph-break signal, `StopIteration`, `IndexError`, and
  assertion-style invariant failures are distinct constructors of an error
  type returned through `Except`.
-/

namespace TorchDynamo

/-- A guard predicate; guards are deduplicated by `(name, kind)` identity, so
each distinct guard is an abstract token. -/
abbrev Guard := Nat

/-- The Python literal values the claims need (`None` and integers).
`ConstantVariable.is_literal` also accepts other scalars and literal
containers; only these two kinds are exercised by the claims. -/
inductive PyLit where
  | pynone
  | int (n : Int)
deriving DecidableEq

/-- Payload distinguishing the tracked-variable variants that occur as leaves
or elements in the claims: `ConstantVariable(value)`, `TensorVariable` (graph
handle plus optional `size` metadata from `specialize`), and every other
variant as an abstract tagged value. -/
inductive VData where
  | constant (value : PyLit)
  | tensor (proxy : Nat) (size : Option (List Nat))
  | other (tag : Nat)
deriving DecidableEq

/-- A tracked variable (`VariableTracker`): payload plus the base-class fields
`guards`, `source`, `mutable_local` set by `VariableTracker.__init__`. -/
structure V where
  data : VData
  guards : Finset Guard
  source : Option Nat
  mutable_local : Option Nat
deriving DecidableEq

/-- `VariableTracker.add_guard`: clone with `guards = self.guards ∪ {guard}`;
`clone` is a shallow copy, so every other field is unchanged. -/
def V.add_guard (v : V) (g : Guard) : V :=
  { v with guards := v.guards ∪ {g} }

/-- `VariableTracker.add_guards`: clone with the union of a whole guard set. -/
def V.add_guards (v : V) (gs : Finset Guard) : V :=
  { v with guards := v.guards ∪ gs }

/-- `as_python_constant`, restricted to the `ConstantVariable` case the claims
use (`None` or an integer); `none` models the `NotImplementedError` raise. -/
def V.asPyConst (v : V) : Option PyLit :=
  match v.data with
  | .constant c => some c
  | _ => none

/-- `is_python_constant`: try `as_python_constant` and interpret failure as
false. -/
def V.isPyConst (v : V) : Bool :=
  v.asPyConst.isSome

/-- `as_python_constant` specialised to integer results, as used for list and
dict indices/keys (dict keys are modelled as integers). -/
def V.asPyConstInt (v : V) : Option Int :=
  match v.data with
  | .constant (.int n) => some n
  | _ => none

/-- `ConstantVariable(None)` built with no keyword options. -/
def constNoneV : V :=
  ⟨.constant .pynone, ∅, none, none⟩

/-- `ConstantVariable(None, **options)` where `options` carries a guard set. -/
def constantNone (gs : Finset Guard) : V :=
  ⟨.constant .pynone, gs, none, none⟩

/-- An integer `ConstantVariable` with no guards. -/
def constInt (n : Int) : V :=
  ⟨.constant (.int n), ∅, none, none⟩

/-! ### Guard propagation (`VariableTracker.propagate`)

`propagate(*vars)` walks the argument structure with `visit`: a `list`,
`tuple`, `dict_values` or `odict_values` node is recursed into elementwise,
and anything else must be a `VariableTracker`, whose guards are added to the
accumulating union; a non-tracked leaf hits the `assert isinstance(var,
VariableTracker)`. The argument structure is modelled as a tree: `var` is a
tracked-variable leaf carrying its guard set, `raw` is a leaf that is not a
tracked variable, and `seq` is one of the recursed-into sequence types. -/

inductive PropArg where
  | var (guards : Finset Guard)
  | raw
  | seq (elems : List PropArg)

mutual

/-- `visit` from `VariableTracker.propagate`; returns `none` when the
`assert isinstance(var, VariableTracker)` fails on some leaf, otherwise the
union of all guard sets encountered. -/
def visit : PropArg → Option (Finset Guard)
  | .var gs => some gs
  | .raw => none
  | .seq l => visitList l

/-- Elementwise recursion of `visit` through a sequence node. -/
def visitList : List PropArg → Option (Finset Guard)
  | [] => some ∅
  | a :: rest =>
    match visit a, visitList rest with
    | some g, some grest => some (g ∪ grest)
    | _, _ => none

end

/-- `VariableTracker.propagate(*vars)`: the top-level argument tuple is itself
a sequence node. -/
def propagate (vars : List PropArg) : Option (Finset Guard) :=
  visitList vars

mutual

/-- Whether every leaf of the structure is a tracked variable. -/
def allTracked : PropArg → Bool
  | .var _ => true
  | .raw => false
  | .seq l => allTrackedList l

/-- `allTracked` on a sequence of arguments. -/
def allTrackedList : List PropArg → Bool
  | [] => true
  | a :: rest => allTracked a && allTrackedList rest

end

mutual

/-- The union of the guard sets of every tracked-variable leaf reachable in
the structure (the specification-side flat union). -/
def reachGuards : PropArg → Finset Guard
  | .var gs => gs
  | .raw => ∅
  | .seq l => reachGuardsList l

/-- `reachGuards` summed over a sequence of arguments. -/
def reachGuardsList : List PropArg → Finset Guard
  | [] => ∅
  | a :: rest => reachGuards a ∪ reachGuardsList rest

end

/-- The guard union `propagate(self, args)` computes at a `call_method` or
`call_function` site with no keyword arguments. -/
def propagateOptions (selfGuards : Finset Guard) (args : List V) : Finset Guard :=
  args.foldl (fun acc a => acc ∪ a.guards) selfGuards

/-! ### The `BaseListVariable` family -/

/-- Storage shared by the `BaseListVariable` family (`ListVariable`,
`TupleVariable`, `SliceVariable`, ...): an ordered sequence of element
tracked variables plus the base-class fields. -/
structure BaseListV where
  items : List V
  guards : Finset Guard
  source : Option Nat
  mutable_local : Option Nat
deriving DecidableEq

/-- The guard folding performed by `BaseListVariable.__init__`:
`self.guards = set(self.guards)` followed by `self.guards.update(item.guards)`
for each item. -/
def foldGuards (gs : Finset Guard) (items : List V) : Finset Guard :=
  items.foldl (fun acc it => acc ∪ it.guards) gs

/-- The union of the element guard sets of a list of items. -/
def unionItemGuards (items : List V) : Finset Guard :=
  items.foldl (fun acc it => acc ∪ it.guards) ∅

/-- `BaseListVariable.__init__(items, **kwargs)`: store the items and fold
every element's guards into the container's own guard set. -/
def mkBaseList (items : List V) (gs : Finset Guard) (src mloc : Option Nat) :
    BaseListV :=
  ⟨items, foldGuards gs items, src, mloc⟩

/-- `add_guard` on a container: `clone` re-invokes the constructor with the
updated `guards`, re-folding the (already folded) element guards. -/
def BaseListV.add_guard (l : BaseListV) (g : Guard) : BaseListV :=
  mkBaseList l.items (l.guards ∪ {g}) l.source l.mutable_local

/-- Method names dispatched by `call_method` in the claims; `setattrKey` is
the Python name `__setattr__`, and `otherM` stands for any other method
(falling through to the base-class `unimplemented`). -/
inductive MName where
  | append
  | insert
  | pop
  | setattrKey
  | otherM (tag : Nat)
deriving DecidableEq

/-- The failure modes of a `call_method`: the recoverable
`unimplemented` graph-break signal raised by the base-class fallback, an
assertion-style invariant failure (failed `assert`, tuple-unpacking error, or
`NotImplementedError` escaping `as_python_constant`), and `IndexError` from
`list.pop`. -/
inductive MethodErr where
  | unimpl (m : MName)
  | assertFail
  | indexErr
deriving DecidableEq

/-- Python `list.insert(i, x)` semantics: negative indices count from the
end, and the index is clamped into `[0, len]`. -/
def pyInsert (i : Int) (x : V) (l : List V) : List V :=
  let j : Nat := if i < 0 then (i + l.length).toNat else min i.toNat l.length
  l.take j ++ x :: l.drop j

/-- Python `list.pop(i)` semantics: negative indices count from the end;
out-of-range indices raise `IndexError` (modelled as `none`). Returns the
popped element and the remaining list. -/
def pyPop (l : List V) (i : Int) : Option (V × List V) :=
  let j : Int := if i < 0 then i + l.length else i
  if h : 0 ≤ j ∧ j.toNat < l.length then
    some (l.get ⟨j.toNat, h.2⟩, l.eraseIdx j.toNat)
  else none

/-- `ListVariable.call_method`: `append`/`insert`/`pop` are handled only when
the receiver carries a `mutable_local` token; each branch builds a brand-new
`ListVariable` over the updated items with a freshly minted token, issues one
`tx.replace_all(self, new)` request (returned as the event list), and returns
`ConstantVariable(None, **options)` (for `pop`, the popped element). Every
other case falls through to the base class, which raises the `unimplemented`
graph-break signal. The fresh `MutableLocal()` is the supplied `fresh`
token, and `options` is `propagate(self, args, kwargs.values())` with no
keyword arguments. -/
def ListVariable.call_method (self : BaseListV) (name : MName) (args : List V)
    (fresh : Nat) : Except MethodErr (Option V × List (BaseListV × BaseListV)) :=
  let opts := propagateOptions self.guards args
  if name = .append ∧ self.mutable_local.isSome then
    match args with
    | [arg] =>
      let newlist := mkBaseList (self.items ++ [arg]) opts none (some fresh)
      .ok (some (constantNone opts), [(self, newlist)])
    | _ => .error .assertFail
  else if name = .insert ∧ self.mutable_local.isSome then
    match args with
    | [idx, value] =>
      match idx.asPyConstInt with
      | some i =>
        let newlist := mkBaseList (pyInsert i value self.items) opts none (some fresh)
        .ok (some (constantNone opts), [(self, newlist)])
      | none => .error .assertFail
    | _ => .error .assertFail
  else if name = .pop ∧ self.mutable_local.isSome then
    match args with
    | [] =>
      match pyPop self.items (-1) with
      | some (res, rest) =>
        .ok (some res, [(self, mkBaseList rest opts none (some fresh))])
      | none => .error .indexErr
    | [idx] =>
      match idx.asPyConstInt with
      | some i =>
        match pyPop self.items i with
        | some (res, rest) =>
          .ok (some res, [(self, mkBaseList rest opts none (some fresh))])
        | none => .error .indexErr
      | none => .error .assertFail
    | _ => .error .assertFail
  else .error (.unimpl name)

/-! ### `ListIteratorVariable` -/

/-- `ListIteratorVariable`: items, current index, and the base-class
fields. -/
structure ListIterV where
  items : List V
  index : Nat
  guards : Finset Guard
  source : Option Nat
  mutable_local : Option Nat
deriving DecidableEq

/-- Failure modes of `next_variables`: the `assert self.mutable_local`
invariant failure, and the `StopIteration` exhaustion signal. -/
inductive NextErr where
  | assertFail
  | stopIteration
deriving DecidableEq

/-- `ListIteratorVariable.next_variables`: asserts the receiver carries a
mutation token; raises `StopIteration` when `index >= len(items)`; otherwise
returns `items[index].add_guards(self.guards)` paired with a new
`ListIteratorVariable` over the same items at `index + 1` carrying a freshly
minted `MutableLocal()` (the supplied `fresh` token) and the guards from
`propagate([self])`. -/
def ListIteratorVariable.next_variables (self : ListIterV) (fresh : Nat) :
    Except NextErr (V × ListIterV) :=
  if self.mutable_local.isSome then
    if h : self.index < self.items.length then
      .ok ((self.items.get ⟨self.index, h⟩).add_guards self.guards,
        ⟨self.items, self.index + 1, self.guards, none, some fresh⟩)
    else .error .stopIteration
  else .error .assertFail

/-! ### `ConstDictVariable`

Keys must be literal and hashable; the model restricts them to integers
(which also carry the order used by `sorted`). The internal `OrderedDict` is
modelled as an association list in its insertion order. -/

/-- `ConstDictVariable`: the ordered key/value map plus base-class fields. -/
structure ConstDictV where
  items : List (Int × V)
  guards : Finset Guard
  source : Option Nat
  mutable_local : Option Nat
deriving DecidableEq

/-- Ordered insertion of one key/value pair in front of the first entry with
a key not smaller than it (the step of `sorted` rebuilding). -/
def sortedInsertKV (p : Int × V) : List (Int × V) → List (Int × V)
  | [] => [p]
  | q :: rest => if p.1 ≤ q.1 then p :: q :: rest else q :: sortedInsertKV p rest

/-- Rebuild an association list in ascending key order, as
`OrderedDict((k, items[k]) for k in sorted(items.keys()))` does. -/
def sortByKey (l : List (Int × V)) : List (Int × V) :=
  l.foldr sortedInsertKV []

/-- `ConstDictVariable.__init__` on a plain `dict`: the map is rebuilt in
sorted key order. Note: element guards are *not* folded into the container's
guard set. -/
def mkConstDictFromDict (items : List (Int × V)) (gs : Finset Guard)
    (src mloc : Option Nat) : ConstDictV :=
  ⟨sortByKey items, gs, src, mloc⟩

/-- `ConstDictVariable.__init__` on an `OrderedDict`: the map is stored in
the given order unchanged (the `isinstance(items, collections.OrderedDict)`
branch). Element guards are *not* folded. -/
def mkConstDictFromODict (items : List (Int × V)) (gs : Finset Guard)
    (src mloc : Option Nat) : ConstDictV :=
  ⟨items, gs, src, mloc⟩

/-- `OrderedDict` key assignment `newval[key] = value`: replace in place when
the key is present, otherwise append the new entry at the end of the
order. -/
def odictSet (items : List (Int × V)) (k : Int) (v : V) : List (Int × V) :=
  if items.any (fun p => p.1 = k) then
    items.map (fun p => if p.1 = k then (k, v) else p)
  else items ++ [(k, v)]

/-- Whether a list of keys is in ascending order. -/
def sortedIntsB : List Int → Bool
  | [] => true
  | [_] => true
  | a :: b :: rest => if a ≤ b then sortedIntsB (b :: rest) else false

/-- The key sequence of the stored map. -/
def keysOf (l : List (Int × V)) : List Int :=
  l.map Prod.fst

/-- Whether the stored map is in canonical sorted-key order. -/
def sortedKeysB (l : List (Int × V)) : Bool :=
  sortedIntsB (keysOf l)

/-- `ConstDictVariable.call_method`, restricted to the dispatch the claims
exercise: the `__setattr__` branch fires when there is at least one argument,
the first argument is a Python constant, and the receiver carries a mutation
token; it copies the `OrderedDict`, assigns the key, issues one
`tx.replace_all(self, new)` request with a fresh token — and then returns
nothing (the Python method falls off the end, returning `None` rather than a
tracked variable, modelled as `Option.none`). Any other method name falls
through to the base-class `unimplemented` graph-break. -/
def ConstDictVariable.call_method (self : ConstDictV) (name : MName)
    (args : List V) (fresh : Nat) :
    Except MethodErr (Option V × List (ConstDictV × ConstDictV)) :=
  let opts := propagateOptions self.guards args
  if name = .setattrKey ∧ args ≠ [] ∧ (args.headD constNoneV).isPyConst
      ∧ self.mutable_local.isSome then
    match args with
    | [k, v] =>
      match k.asPyConstInt with
      | some key =>
        .ok (none,
          [(self, mkConstDictFromODict (odictSet self.items key v) opts none
              (some fresh))])
      | none => .error .assertFail
    | _ => .error .assertFail
  else .error (.unimpl name)

/-! ### `len` on a tensor (`BuiltinVariable.call_function`, `self.fn is len`)

The `TensorVariable` case of the `len` branch: `if arg.size:` is a Python
truthiness test, so it selects the constant path only when the size metadata
is a *non-empty* tuple; a known-but-empty size `()` (a 0-dim tensor) falls
into the graph-node path together with unknown size. The graph-node path
calls `tx.create_proxy` exactly once (modelled as a counter returning the
next node id) and wraps it via `TensorVariable.create`; dynamic example-value
propagation (`config.dynamic_propagation`) is modelled as disabled, in which
case `create` returns `TensorVariable(proxy, **options)` with no metadata. -/
def builtin_call_len_tensor (dynamic_shapes : Bool) (selfGuards : Finset Guard)
    (arg : V) (counter : Nat) : Except MethodErr (V × Nat) :=
  let opts := propagateOptions selfGuards [arg]
  match arg.data with
  | .tensor _p size =>
    match size with
    | some (d :: _) =>
      if dynamic_shapes then .error .assertFail
      else .ok (⟨.constant (.int (d : Int)), opts, none, none⟩, counter)
    | _ =>
      .ok (⟨.tensor counter none, opts, none, none⟩, counter + 1)
  | _ => .error .assertFail

/-! ### `SliceVariable.__init__` -/

/-- `SliceVariable.__init__`: `start, stop, step` all default to
`ConstantVariable(None)` (built with no options, hence no guards); one
argument sets `stop`, two set `start, stop`, three set all, and any other
arity hits `assert False` (modelled as `none`). The triple is then stored via
`BaseListVariable.__init__([start, stop, step], **kwargs)`. -/
def mkSliceVariable (items : List V) (gs : Finset Guard)
    (src mloc : Option Nat) : Option BaseListV :=
  match items with
  | [stop] => some (mkBaseList [constNoneV, stop, constNoneV] gs src mloc)
  | [start, stop] => some (mkBaseList [start, stop, constNoneV] gs src mloc)
  | [start, stop, step] => some (mkBaseList [start, stop, step] gs src mloc)
  | _ => none

/-! ### `VariableTracker.apply` (the memoized tree rewrite)

`apply(fn, value, cache)` recurses over a Python object graph in which the
same object can be referenced from several places (and, for containers, can
reference itself), so the embedding uses an explicit heap: `PyRef.ref i` is a
reference to the object with identity `i` (`id(value)` in the code), stored
in an association-list `Store`; `PyRef.raw` is any other value, returned
unchanged. A `vtNode` holds the `__dict__` field values of a
`VariableTracker`, a `listNode` the elements of a `list`.

Following the code exactly: the cache is consulted *first*
(`if idx in cache: return cache[idx]`), the children are rewritten
recursively, and only then is the entry written (`cache[idx] = result` at the
end — *after* the recursion). Recursion depth is paid for by an explicit
`fuel` argument; `none` means the fuel ran out (the Python original would
still be recursing). The third result component counts how many times `fn`
was invoked. -/

inductive PyRef where
  | ref (i : Nat)
  | raw (n : Nat)
deriving DecidableEq

inductive PyObj where
  | vtNode (fields : List PyRef)
  | listNode (elems : List PyRef)
deriving DecidableEq

/-- The rewritten values produced by `apply`: a rebuilt tracked variable
(`fn(value.clone(**apply(fn, value.__dict__, cache)))`), a rebuilt list, or
an unchanged raw value. -/
inductive RVal where
  | rvt (fields : List RVal)
  | rlist (elems : List RVal)
  | rraw (n : Nat)

abbrev Store := List (Nat × PyObj)

/-- Heap lookup by object identity. -/
def lookupS (store : Store) (i : Nat) : Option PyObj :=
  (store.find? (fun p => p.1 = i)).map Prod.snd

/-- Cache lookup by original-object identity (`id(value) in cache`). -/
def lookupC (cache : List (Nat × RVal)) (i : Nat) : Option RVal :=
  (cache.find? (fun p => p.1 = i)).map Prod.snd

mutual

/-- `VariableTracker.apply(fn, value, cache)` on one value. -/
def applyV (fn : RVal → RVal) (store : Store) :
    Nat → PyRef → List (Nat × RVal) → Option (RVal × List (Nat × RVal) × Nat)
  | 0, _, _ => none
  | _ + 1, .raw n, cache => some (.rraw n, cache, 0)
  | fuel + 1, .ref i, cache =>
    match lookupC cache i with
    | some r => some (r, cache, 0)
    | none =>
      match lookupS store i with
      | none => none
      | some (.vtNode fields) =>
        match applyL fn store fuel fields cache with
        | none => none
        | some (rs, cache2, c) =>
          let r := fn (.rvt rs)
          some (r, (i, r) :: cache2, c + 1)
      | some (.listNode elems) =>
        match applyL fn store fuel elems cache with
        | none => none
        | some (rs, cache2, c) => some (.rlist rs, (i, .rlist rs) :: cache2, c)
termination_by fuel _v _cache => (fuel, 0)

/-- `apply` mapped across the children of a node, threading the cache (and
the `fn` invocation count) left to right. -/
def applyL (fn : RVal → RVal) (store : Store) :
    Nat → List PyRef → List (Nat × RVal) →
      Option (List RVal × List (Nat × RVal) × Nat)
  | _, [], cache => some ([], cache, 0)
  | fuel, v :: rest, cache =>
    match applyV fn store fuel v cache with
    | none => none
    | some (r, cache2, c1) =>
      match applyL fn store fuel rest cache2 with
      | none => none
      | some (rs, cache3, c2) => some (r :: rs, cache3, c1 + c2)
termination_by fuel l _cache => (fuel, l.length + 1)

end

/-- Depth boundedness: every chain of references starting at the value
dereferences at most `n` nodes. A store admitting such a bound for a value is
acyclic below it; a self-referential container admits none. -/
def depthOk (store : Store) : Nat → PyRef → Bool
  | _, .raw _ => true
  | 0, .ref _ => false
  | n + 1, .ref i =>
    match lookupS store i with
    | none => false
    | some (.vtNode fields) => fields.all (fun f => depthOk store n f)
    | some (.listNode elems) => elems.all (fun e => depthOk store n e)

/-- The rewrite never finishes on this value, whatever recursion depth it is
given. -/
def applyDiverges (fn : RVal → RVal) (store : Store) (v : PyRef) : Prop :=
  ∀ fuel, applyV fn store fuel v [] = none

/-- A list that contains itself: `x = []; x.append(x)` — a structure with a
repeated (self-) sub-reference. -/
def cycStore : Store := [(0, .listNode [.ref 0])]

/-- A structure with a shared sub-reference: a list whose two elements are
the *same* tracked-variable object. -/
def diamondStore : Store :=
  [(0, .listNode [.ref 1, .ref 1]), (1, .vtNode [.raw 7])]

/-- The child references `apply` recurses into for one heap node: the
`__dict__` values of a tracked variable, or the elements of a list. -/
def childrenOf : PyObj → List PyRef
  | .vtNode fs => fs
  | .listNode es => es

/-- Whether a heap lookup found a tracked-variable node (the nodes on which
`apply` invokes `fn`). -/
def isVtNode : Option PyObj → Bool
  | some (.vtNode _) => true
  | _ => false

/-- The set of distinct tracked-variable node identities present in a cache:
the identities for which a later `apply` call is a pure cache hit. -/
def cachedVtIds (store : Store) (cache : List (Nat × RVal)) : Finset Nat :=
  ((cache.map Prod.fst).filter (fun i => isVtNode (lookupS store i))).toFinset

/-- Reachability between heap identities: `RefReach store v j` holds when the
node `j` can be reached from the value `v` by dereferencing zero or more
child references. -/
inductive RefReach (store : Store) : PyRef → Nat → Prop where
  | self (i : Nat) : RefReach store (.ref i) i
  | step (i j : Nat) (obj : PyObj) (c : PyRef)
      (hS : lookupS store i = some obj) (hc : c ∈ childrenOf obj)
      (h : RefReach store c j) : RefReach store (.ref i) j

/-- An acyclic store: every allocated node admits a finite depth bound on its
reference chains (a self-referential container admits none). -/
def StoreAcyclic (store : Store) : Prop :=
  ∀ i obj, lookupS store i = some obj → ∃ n, depthOk store n (.ref i) = true

/-! ## Theorems -/

mutual

/-- `visit` succeeds exactly on all-tracked structures and then returns the
flat union of leaf guard sets. -/
theorem visit_eq (a : PropArg) :
    visit a = if allTracked a then some (reachGuards a) else none := by
  match a with
  | .var gs => simp [visit, allTracked, reachGuards]
  | .raw => simp [visit, allTracked, reachGuards]
  | .seq l => simpa [visit, allTracked, reachGuards] using visitList_eq l

/-- `visitList` succeeds exactly on all-tracked argument lists and then
returns the flat union of leaf guard sets. -/
theorem visitList_eq (l : List PropArg) :
    visitList l = if allTrackedList l then some (reachGuardsList l) else none := by
  match l with
  | [] => simp [visitList, allTrackedList, reachGuardsList]
  | a :: rest =>
    rw [visitList, visit_eq a, visitList_eq rest]
    by_cases h1 : allTracked a <;> by_cases h2 : allTrackedList rest <;>
      simp [h1, h2, allTrackedList, reachGuardsList]

end

/-- Claim C1: for every argument structure built from tracked variables
nested inside ordered sequences and mapping values,
`VariableTracker.propagate` returns exactly the union of the guard sets of
every tracked-variable leaf reachable in the structure — independent of
nesting depth or grouping, since `reachGuardsList` is the flat union — and
fails (assertion) as soon as any leaf is not a tracked variable; wrapping
the operands in one more level of sequence nesting does not change the
result. -/
theorem propagate_spec (vars : List PropArg) :
    propagate vars =
      (if allTrackedList vars then some (reachGuardsList vars) else none)
    ∧ visit (.seq vars) = propagate vars := by
  exact ⟨visitList_eq vars, rfl⟩

/-- `foldGuards` is the union of the starting guard set with every element's
guard set. -/
theorem foldGuards_eq (items : List V) :
    ∀ gs : Finset Guard, foldGuards gs items = gs ∪ unionItemGuards items := by
  induction items with
  | nil => intro gs; simp [foldGuards, unionItemGuards]
  | cons it rest ih =>
    intro gs
    show List.foldl _ (gs ∪ it.guards) rest =
      gs ∪ List.foldl _ (∅ ∪ it.guards) rest
    have h1 := ih (gs ∪ it.guards)
    have h2 := ih (∅ ∪ it.guards)
    simp only [foldGuards] at h1 h2
    rw [h1, h2]
    ext x
    simp [Finset.mem_union]

/-- Claim C2: for every tracked variable `v` and guard `g`, the guard set of
`v.add_guard(g)` contains `v.guards ∪ {g}`, and `add_guard` is idempotent —
`v.add_guard(g).add_guard(g)` equals `v.add_guard(g)` as a whole structure
(same guard set and all other fields equal). Stated both for a plain tracked
variable and for a container of the `BaseListVariable` family, whose `clone`
re-invokes the guard-folding constructor. -/
theorem add_guard_spec (v : V) (g : Guard) (l : BaseListV) :
    v.guards ∪ {g} ⊆ (v.add_guard g).guards
    ∧ (v.add_guard g).add_guard g = v.add_guard g
    ∧ l.guards ∪ {g} ⊆ (l.add_guard g).guards
    ∧ (l.add_guard g).add_guard g = l.add_guard g := by
  refine ⟨?_, ?_, ?_, ?_⟩
  · simp [V.add_guard]
  · simp only [V.add_guard]
    congr 1
    rw [Finset.union_assoc, Finset.union_self]
  · simp only [BaseListV.add_guard, mkBaseList, foldGuards_eq]
    intro x hx
    simp only [Finset.mem_union] at hx ⊢
    tauto
  · simp only [BaseListV.add_guard, mkBaseList, foldGuards_eq]
    simp only [BaseListV.mk.injEq, and_true, true_and]
    ext x
    simp [Finset.mem_union]
    tauto

/-- Claim C9: `SliceVariable.__init__` normalizes the 1-, 2- and 3-argument
constructor forms to the canonical `(start, stop, step)` triple — one
argument `b` yields `(None, b, None)`, two arguments `a, b` yield
`(a, b, None)`, three arguments `a, b, c` yield `(a, b, c)` — with every
defaulted field wrapped as `ConstantVariable(None)`; any other arity hits
`assert False`. -/
theorem slice_normalization_spec (a b c d : V) (gs : Finset Guard)
    (src mloc : Option Nat) :
    (mkSliceVariable [b] gs src mloc).map BaseListV.items =
      some [constNoneV, b, constNoneV]
    ∧ (mkSliceVariable [a, b] gs src mloc).map BaseListV.items =
      some [a, b, constNoneV]
    ∧ (mkSliceVariable [a, b, c] gs src mloc).map BaseListV.items =
      some [a, b, c]
    ∧ mkSliceVariable [] gs src mloc = none
    ∧ mkSliceVariable [a, b, c, d] gs src mloc = none := by
  exact ⟨rfl, rfl, rfl, rfl, rfl⟩

/-- Indexing an appended list at the length of its prefix yields the first
appended element. -/
theorem get_append_mid (init rest : List V) (a : V)
    (h : init.length < (init ++ a :: rest).length) :
    (init ++ a :: rest).get ⟨init.length, h⟩ = a := by
  induction init with
  | nil => rfl
  | cons x xs ih => exact ih _

/-- Claim C3: on a `ListVariable` carrying a mutation token, `append`
(likewise `insert` and `pop`) produces a brand-new list over the updated
items carrying the freshly minted token, issues exactly one
`replace_all(old, new)` request whose old side is the untouched receiver,
and returns `ConstantVariable(None)` (for `pop`, the popped element); the
new token differs from the receiver's whenever the minted token is distinct.
On a `ListVariable` with no mutation token the same three methods fall
through to the base class and raise the `unimplemented` graph-break signal,
issuing no substitution request at all. -/
theorem list_call_method_spec (items args : List V) (gs : Finset Guard)
    (src : Option Nat) (t f : Nat) (arg value res : V) (i : Int)
    (rest : List V) :
    ListVariable.call_method ⟨items, gs, src, some t⟩ .append [arg] f
      = .ok (some (constantNone (propagateOptions gs [arg])),
          [(⟨items, gs, src, some t⟩,
            mkBaseList (items ++ [arg]) (propagateOptions gs [arg]) none
              (some f))])
    ∧ ListVariable.call_method ⟨items, gs, src, some t⟩ .insert
        [constInt i, value] f
      = .ok (some (constantNone (propagateOptions gs [constInt i, value])),
          [(⟨items, gs, src, some t⟩,
            mkBaseList (pyInsert i value items)
              (propagateOptions gs [constInt i, value]) none (some f))])
    ∧ (pyPop items (-1) = some (res, rest) →
        ListVariable.call_method ⟨items, gs, src, some t⟩ .pop [] f
          = .ok (some res,
              [(⟨items, gs, src, some t⟩,
                mkBaseList rest (propagateOptions gs []) none (some f))]))
    ∧ (pyPop items i = some (res, rest) →
        ListVariable.call_method ⟨items, gs, src, some t⟩ .pop [constInt i] f
          = .ok (some res,
              [(⟨items, gs, src, some t⟩,
                mkBaseList rest (propagateOptions gs [constInt i]) none
                  (some f))]))
    ∧ ListVariable.call_method ⟨items, gs, src, none⟩ .append args f
      = .error (.unimpl .append)
    ∧ ListVariable.call_method ⟨items, gs, src, none⟩ .insert args f
      = .error (.unimpl .insert)
    ∧ ListVariable.call_method ⟨items, gs, src, none⟩ .pop args f
      = .error (.unimpl .pop)
    ∧ (t ≠ f →
        (mkBaseList (items ++ [arg]) (propagateOptions gs [arg]) none
          (some f)).mutable_local
          ≠ (⟨items, gs, src, some t⟩ : BaseListV).mutable_local) := by
  refine ⟨?_, ?_, ?_, ?_, ?_, ?_, ?_, ?_⟩
  · simp [ListVariable.call_method]
  · simp [ListVariable.call_method, V.asPyConstInt, constInt]
  · intro hpop
    simp [ListVariable.call_method, hpop]
  · intro hpop
    simp [ListVariable.call_method, V.asPyConstInt, constInt, hpop]
  · simp [ListVariable.call_method]
  · simp [ListVariable.call_method]
  · simp [ListVariable.call_method]
  · intro ht
    simp [mkBaseList]
    omega

/-- Witness for C3 at a concrete input: the receiver is
`ListVariable([c9], token 0)`, the minted token is 1, and every hypothesis
of `list_call_method_spec` is discharged by evaluation. -/
theorem list_call_method_spec_witness :
    (ListVariable.call_method ⟨[constInt 9], ∅, none, some 0⟩ .pop [] 1
      = .ok (some (constInt 9),
          [(⟨[constInt 9], ∅, none, some 0⟩,
            mkBaseList [] (propagateOptions ∅ []) none (some 1))]))
    ∧ (mkBaseList ([constInt 9] ++ [constInt 5])
        (propagateOptions ∅ [constInt 5]) none (some 1)).mutable_local
        ≠ (⟨[constInt 9], ∅, none, some 0⟩ : BaseListV).mutable_local := by
  refine ⟨?_, ?_⟩
  · exact (list_call_method_spec [constInt 9] [] ∅ none 0 1 (constInt 5)
      (constInt 5) (constInt 9) (-1) []).2.2.1 (by decide)
  · exact (list_call_method_spec [constInt 9] [] ∅ none 0 1 (constInt 5)
      (constInt 5) (constInt 9) (-1) []).2.2.2.2.2.2.2 (by decide)

/-- Claim C4: `ListIteratorVariable.next_variables` over `n` items with a
mutation token raises `StopIteration` exactly when `index >= n` (every index
of the form `n + k`), and at any in-range index — written `init ++ a :: rest`
with `index = init.length`, which covers every index `< n` — returns the
current item with the iterator's guards added, paired with a new iterator
over the same items at `index + 1` carrying the freshly minted token; since
each successful call increments the index by exactly one, an iterator started
at index 0 succeeds on its first `n` calls and raises on the `(n+1)`-th. The
receiver is a value, never updated in place, and an iterator with no mutation
token is never advanced: the call fails on the `assert self.mutable_local`
instead. -/
theorem next_variables_spec (init rest items : List V) (a : V) (k : Nat)
    (gs : Finset Guard) (src src2 : Option Nat) (t f : Nat) :
    ListIteratorVariable.next_variables
        ⟨init ++ a :: rest, init.length, gs, src, some t⟩ f
      = .ok (a.add_guards gs,
          ⟨init ++ a :: rest, init.length + 1, gs, none, some f⟩)
    ∧ ListIteratorVariable.next_variables
        ⟨items, items.length + k, gs, src, some t⟩ f
      = .error .stopIteration
    ∧ ListIteratorVariable.next_variables ⟨items, k, gs, src2, none⟩ f
      = .error .assertFail := by
  refine ⟨?_, ?_, ?_⟩
  · have hlt : init.length < (init ++ a :: rest).length := by
      simp
    simp only [ListIteratorVariable.next_variables]
    rw [if_pos (show (some t).isSome = true from rfl), dif_pos hlt,
      get_append_mid]
  · simp [ListIteratorVariable.next_variables]
  · simp [ListIteratorVariable.next_variables]

/-- Claim C10: on a token-bearing `ConstDictVariable`, `call_method` with
`__setattr__`, a literal key and a value issues the `replace_all`
substitution carrying the updated dict — and then returns no tracked
variable at all (the Python method body has no `return` statement, so the
caller receives `None`, modelled as `Option.none`), unlike
`ListVariable.append`, which returns `ConstantVariable(None)` as a tracked
variable. -/
theorem setattr_returns_nothing_spec (ditems : List (Int × V))
    (dgs : Finset Guard) (dsrc : Option Nat) (td f : Nat) (k : Int) (v : V)
    (litems : List V) (lgs : Finset Guard) (lsrc : Option Nat) (tl g : Nat)
    (arg : V) :
    ConstDictVariable.call_method ⟨ditems, dgs, dsrc, some td⟩ .setattrKey
        [constInt k, v] f
      = .ok (none,
          [(⟨ditems, dgs, dsrc, some td⟩,
            mkConstDictFromODict (odictSet ditems k v)
              (propagateOptions dgs [constInt k, v]) none (some f))])
    ∧ ListVariable.call_method ⟨litems, lgs, lsrc, some tl⟩ .append [arg] g
      = .ok (some (constantNone (propagateOptions lgs [arg])),
          [(⟨litems, lgs, lsrc, some tl⟩,
            mkBaseList (litems ++ [arg]) (propagateOptions lgs [arg]) none
              (some g))]) := by
  refine ⟨?_, ?_⟩
  · simp [ConstDictVariable.call_method, V.isPyConst, V.asPyConst,
      V.asPyConstInt, constInt]
  · simp [ListVariable.call_method]

/-- Counterexample to Claim C6 as stated: a `ConstDictVariable` constructed
from a plain dict holding one element that carries guard `5` inside a
container built with an empty guard set — the element's guard is *not*
folded into the container's guard set by `ConstDictVariable.__init__` (which
only sorts the keys), so the container's guards are not a superset of its
elements' guards. -/
theorem container_guard_fold_counterexample :
    ¬ unionItemGuards [⟨.other 0, {5}, none, none⟩] ⊆
      (mkConstDictFromDict [(0, ⟨.other 0, {5}, none, none⟩)] ∅ none
        none).guards := by
  decide

/-- Claim C6, amended: only the `BaseListVariable` family folds element
guards at construction — `BaseListVariable.__init__` makes the container's
guard set exactly the constructor guards unioned with every element's guards
(hence a superset of the elements' union) — while
`ConstDictVariable.__init__` leaves the guard set exactly as passed,
folding nothing, on both its plain-dict and `OrderedDict` paths. -/
theorem container_guard_fold_spec (items : List V) (ditems : List (Int × V))
    (gs : Finset Guard) (src mloc : Option Nat) :
    (mkBaseList items gs src mloc).guards = gs ∪ unionItemGuards items
    ∧ unionItemGuards items ⊆ (mkBaseList items gs src mloc).guards
    ∧ (mkConstDictFromDict ditems gs src mloc).guards = gs
    ∧ (mkConstDictFromODict ditems gs src mloc).guards = gs := by
  refine ⟨?_, ?_, rfl, rfl⟩
  · simp [mkBaseList, foldGuards_eq]
  · simp only [mkBaseList, foldGuards_eq]
    exact Finset.subset_union_right

/-- Counterexample to Claim C7 as stated: a tensor whose size metadata is
*known* to be the empty tuple (a 0-dim tensor, as produced by `specialize`)
does not yield a `Constant` from `len` — the code's `if arg.size:` truthiness
test sends it down the graph-node path, returning a `TensorVariable` over a
newly created proxy (the counter moves from 5 to 6). -/
theorem len_tensor_counterexample :
    builtin_call_len_tensor false ∅ ⟨.tensor 0 (some []), ∅, none, none⟩ 5
      = .ok (⟨.tensor 5 none, ∅, none, none⟩, 6) := by
  rfl

/-- Claim C7, amended: for `len` on a `TensorVariable` (with dynamic shape
tracing disabled and dynamic example propagation off): when the size
metadata is known *and non-empty*, the result is
`ConstantVariable(arg.size[0])` — the literal first-dimension size — with no
graph node created (the proxy counter is unchanged); when size metadata is
unknown (`None`) or known-empty (`()`), exactly one `create_proxy` call is
made (the counter advances by one) and the result is a `TensorVariable`
wrapping the new node, never a literal. -/
theorem len_tensor_spec (p d : Nat) (ds : List Nat) (gs sg : Finset Guard)
    (c : Nat) (src mloc : Option Nat) :
    builtin_call_len_tensor false sg ⟨.tensor p (some (d :: ds)), gs, src,
        mloc⟩ c
      = .ok (⟨.constant (.int (d : Int)),
          propagateOptions sg [⟨.tensor p (some (d :: ds)), gs, src, mloc⟩],
          none, none⟩, c)
    ∧ builtin_call_len_tensor false sg ⟨.tensor p none, gs, src, mloc⟩ c
      = .ok (⟨.tensor c none,
          propagateOptions sg [⟨.tensor p none, gs, src, mloc⟩],
          none, none⟩, c + 1)
    ∧ builtin_call_len_tensor false sg ⟨.tensor p (some []), gs, src, mloc⟩ c
      = .ok (⟨.tensor c none,
          propagateOptions sg [⟨.tensor p (some []), gs, src, mloc⟩],
          none, none⟩, c + 1) := by
  exact ⟨rfl, rfl, rfl⟩

/-- A cons key list is sorted iff its head bounds every later key and the
tail is sorted. -/
theorem sortedIntsB_cons_iff (a : Int) (l : List Int) :
    sortedIntsB (a :: l) = true ↔ (∀ b ∈ l, a ≤ b) ∧ sortedIntsB l = true := by
  induction l generalizing a with
  | nil => simp [sortedIntsB]
  | cons b rest ih =>
    constructor
    · intro h
      rw [show sortedIntsB (a :: b :: rest)
          = if a ≤ b then sortedIntsB (b :: rest) else false from rfl] at h
      by_cases hab : a ≤ b
      · rw [if_pos hab] at h
        have hb := (ih b).mp h
        refine ⟨?_, h⟩
        intro c hc
        rcases List.mem_cons.mp hc with rfl | hc
        · exact hab
        · exact le_trans hab (hb.1 c hc)
      · rw [if_neg hab] at h
        exact absurd h (by simp)
    · rintro ⟨hball, hsorted⟩
      have hab : a ≤ b := hball b (List.mem_cons_self b rest)
      show (if a ≤ b then sortedIntsB (b :: rest) else false) = true
      rw [if_pos hab]
      exact hsorted

/-- Every key of an ordered insertion is the inserted key or one of the
original keys. -/
theorem mem_keys_sortedInsert (p : Int × V) (l : List (Int × V)) (x : Int)
    (hx : x ∈ keysOf (sortedInsertKV p l)) : x = p.1 ∨ x ∈ keysOf l := by
  induction l with
  | nil =>
    simp [sortedInsertKV, keysOf] at hx
    exact Or.inl hx
  | cons q rest ih =>
    by_cases h : p.1 ≤ q.1
    · simp [sortedInsertKV, h, keysOf] at hx ⊢
      tauto
    · simp [sortedInsertKV, h, keysOf] at hx ⊢
      rcases hx with hx | hx
      · tauto
      · rcases ih (by simpa [keysOf] using hx) with h1 | h1
        · tauto
        · simp [keysOf] at h1
          tauto

/-- Ordered insertion preserves sorted-key order. -/
theorem sortedInsert_sorted (p : Int × V) (l : List (Int × V))
    (hs : sortedKeysB l = true) : sortedKeysB (sortedInsertKV p l) = true := by
  induction l with
  | nil => rfl
  | cons q rest ih =>
    have hs' := (sortedIntsB_cons_iff q.1 (rest.map Prod.fst)).mp hs
    by_cases h : p.1 ≤ q.1
    · show sortedKeysB (if p.1 ≤ q.1 then p :: q :: rest
        else q :: sortedInsertKV p rest) = true
      rw [if_pos h]
      refine (sortedIntsB_cons_iff p.1 _).mpr ⟨?_, hs⟩
      intro b hb
      rcases List.mem_cons.mp hb with rfl | hb
      · exact h
      · exact le_trans h (hs'.1 b hb)
    · show sortedKeysB (if p.1 ≤ q.1 then p :: q :: rest
        else q :: sortedInsertKV p rest) = true
      rw [if_neg h]
      refine (sortedIntsB_cons_iff q.1 _).mpr ⟨?_, ih hs'.2⟩
      intro b hb
      rcases mem_keys_sortedInsert p rest b hb with rfl | hb
      · exact le_of_lt (lt_of_not_le h)
      · exact hs'.1 b hb

/-- Insertion sort by key produces a sorted-key map. -/
theorem sortByKey_sorted (l : List (Int × V)) :
    sortedKeysB (sortByKey l) = true := by
  induction l with
  | nil => rfl
  | cons p rest ih => exact sortedInsert_sorted p (sortByKey rest) ih

/-- Appending a key that dominates a sorted key list keeps it sorted. -/
theorem sortedIntsB_append (l : List Int) (k : Int)
    (hs : sortedIntsB l = true) (hb : ∀ x ∈ l, x ≤ k) :
    sortedIntsB (l ++ [k]) = true := by
  induction l with
  | nil => rfl
  | cons a rest ih =>
    have hs' := (sortedIntsB_cons_iff a rest).mp hs
    have htail := ih hs'.2 (fun x hx => hb x (List.mem_cons_of_mem _ hx))
    refine (sortedIntsB_cons_iff a (rest ++ [k])).mpr ⟨?_, htail⟩
    intro b hb2
    rcases List.mem_append.mp hb2 with h1 | h2
    · exact hs'.1 b h1
    · rw [List.mem_singleton.mp h2]
      exact hb a (List.mem_cons_self a rest)

/-- In-place key replacement leaves the key sequence unchanged. -/
theorem keysOf_odict_replace (items : List (Int × V)) (k : Int) (v : V) :
    keysOf (items.map (fun p => if p.1 = k then (k, v) else p))
      = keysOf items := by
  have hfun : (fun p : Int × V => (if p.1 = k then (k, v) else p).1)
      = fun p : Int × V => p.1 := by
    funext p
    by_cases h : p.1 = k <;> simp [h]
  calc keysOf (items.map (fun p => if p.1 = k then (k, v) else p))
      = items.map (fun p : Int × V => (if p.1 = k then (k, v) else p).1) := by
        simp [keysOf, List.map_map, Function.comp]
    _ = items.map (fun p : Int × V => p.1) := by rw [hfun]
    _ = keysOf items := rfl

/-- Counterexample to Claim C8 as stated: start from the sorted singleton
dict `{1: 9}` built by the constructor, and apply the `__setattr__` mutation
path with the smaller key `0` — the `OrderedDict` copy appends the new key at
the *end* of the order, so the dict carried by the `replace_all` request has
key sequence `[1, 0]`, which is not sorted: the sorted-key invariant is not
preserved by the `__setattr__` path. -/
theorem constdict_sorted_counterexample :
    ConstDictVariable.call_method
        (mkConstDictFromDict [(1, constInt 9)] ∅ none (some 0)) .setattrKey
        [constInt 0, constInt 8] 1
      = .ok (none,
          [(mkConstDictFromDict [(1, constInt 9)] ∅ none (some 0),
            mkConstDictFromODict [(1, constInt 9), (0, constInt 8)] ∅ none
              (some 1))])
    ∧ sortedKeysB [(1, constInt 9), (0, constInt 8)] = false := by
  exact ⟨rfl, rfl⟩

/-- Claim C8, amended: `ConstDictVariable.__init__` establishes sorted-key
order when given a plain dict, but the `__setattr__` mutation path only
preserves it conditionally: replacing an existing key keeps the key sequence
unchanged, and a new key is appended at the end of the order, so sortedness
is preserved exactly in the cases where the key is already present or is at
least every existing key (the counterexample shows it is lost otherwise). -/
theorem constdict_sorted_spec :
    (∀ (ditems : List (Int × V)) (gs : Finset Guard) (src mloc : Option Nat),
        sortedKeysB (mkConstDictFromDict ditems gs src mloc).items = true)
    ∧ (∀ (items : List (Int × V)) (k : Int) (v : V),
        sortedKeysB items = true →
        (items.any (fun p => p.1 = k) = true ∨ ∀ k2 ∈ keysOf items, k2 ≤ k) →
        sortedKeysB (odictSet items k v) = true) := by
  constructor
  · intro ditems gs src mloc
    exact sortByKey_sorted ditems
  · intro items k v hs hdisj
    by_cases hany : items.any (fun p => p.1 = k) = true
    · rw [odictSet, if_pos hany, sortedKeysB, keysOf_odict_replace]
      exact hs
    · have hball : ∀ k2 ∈ keysOf items, k2 ≤ k := by
        rcases hdisj with h | h
        · exact absurd h hany
        · exact h
      rw [odictSet, if_neg hany, sortedKeysB,
        show keysOf (items ++ [(k, v)]) = keysOf items ++ [k] by
          simp [keysOf]]
      exact sortedIntsB_append (keysOf items) k hs hball

/-- Witness for C8 at a concrete input: the sorted dict `{1: 9}` stays
sorted when the dominating key `2` is assigned through the `__setattr__`
path. -/
theorem constdict_sorted_spec_witness :
    sortedKeysB (odictSet [(1, constInt 9)] 2 (constInt 8)) = true :=
  constdict_sorted_spec.2 [(1, constInt 9)] 2 (constInt 8) (by decide)
    (Or.inr (by decide))

/-- On the self-referential list, `apply` recurses forever: since the cache
entry for a node is only written *after* its children have been rewritten,
the cache seen by the recursive call on the self-reference is unchanged, and
every unit of fuel is consumed without progress. -/
theorem applyV_cyc_none (fn : RVal → RVal) :
    ∀ (fuel : Nat) (cache : List (Nat × RVal)), lookupC cache 0 = none →
      applyV fn cycStore fuel (.ref 0) cache = none := by
  intro fuel
  induction fuel with
  | zero =>
    intro cache _
    simp [applyV]
  | succ n ih =>
    intro cache hc
    have hL : applyL fn cycStore n [PyRef.ref 0] cache = none := by
      rw [applyL, ih cache hc]
    have hS : lookupS cycStore 0 = some (PyObj.listNode [PyRef.ref 0]) := rfl
    rw [applyV, hc, hS]
    dsimp only
    rw [hL]

/-- Counterexample to Claim C5 as stated: on a structure with a repeated
(self-) sub-reference — a list containing itself — the rewrite does *not*
terminate, because `apply` records the cache entry only after recursing into
the children (`cache[idx] = result` is the last statement), not before; with
before-recursion caching the claim's termination consequence would hold, but
the code diverges for every recursion depth. -/
theorem apply_memo_counterexample :
    applyDiverges (fun r => r) cycStore (.ref 0) := by
  intro fuel
  exact applyV_cyc_none (fun r => r) fuel [] rfl

/-- On acyclic structures the memoized rewrite terminates: a value all of
whose reference chains dereference at most `n` nodes is rewritten
successfully with fuel `n + 1`, whatever the starting cache. -/
theorem applyV_depthOk_ne_none :
    ∀ (n : Nat) (fn : RVal → RVal) (store : Store) (v : PyRef)
      (cache : List (Nat × RVal)), depthOk store n v = true →
      applyV fn store (n + 1) v cache ≠ none := by
  intro n
  induction n with
  | zero =>
    intro fn store v cache h
    match v with
    | .raw m => simp [applyV]
    | .ref i => simp [depthOk] at h
  | succ n ih =>
    intro fn store v cache h
    match v with
    | .raw m => simp [applyV]
    | .ref i =>
      have hL : ∀ (l : List PyRef), (∀ c ∈ l, depthOk store n c = true) →
          ∀ cache2 : List (Nat × RVal),
            applyL fn store (n + 1) l cache2 ≠ none := by
        intro l
        induction l with
        | nil =>
          intro _ cache2
          simp [applyL]
        | cons c restl ihl =>
          intro hall cache2
          have h1 : applyV fn store (n + 1) c cache2 ≠ none :=
            ih fn store c cache2 (hall c (List.mem_cons_self c restl))
          cases hV : applyV fn store (n + 1) c cache2 with
          | none => exact absurd hV h1
          | some r =>
            rcases r with ⟨r1, cache3, c1⟩
            have h2 := ihl (fun c2 hc2 => hall c2 (List.mem_cons_of_mem _ hc2))
              cache3
            cases hL2 : applyL fn store (n + 1) restl cache3 with
            | none => exact absurd hL2 h2
            | some r2 =>
              rcases r2 with ⟨rs, cache4, c2⟩
              simp [applyL, hV, hL2]
      rw [depthOk] at h
      cases hS : lookupS store i with
      | none =>
        rw [hS] at h
        exact absurd h (by simp)
      | some obj =>
        rw [hS] at h
        cases obj with
        | vtNode fs =>
          have hchild : ∀ c ∈ fs, depthOk store n c = true := by
            simpa using h
          rw [applyV]
          cases hC : lookupC cache i with
          | some r => simp
          | none =>
            rw [hS]
            cases hLe : applyL fn store (n + 1) fs cache with
            | none => exact absurd hLe (hL fs hchild cache)
            | some res =>
              rcases res with ⟨rs, cache2, cnt⟩
              dsimp only
              rw [hLe]
              simp
        | listNode es =>
          have hchild : ∀ c ∈ es, depthOk store n c = true := by
            simpa using h
          rw [applyV]
          cases hC : lookupC cache i with
          | some r => simp
          | none =>
            rw [hS]
            cases hLe : applyL fn store (n + 1) es cache with
            | none => exact absurd hLe (hL es hchild cache)
            | some res =>
              rcases res with ⟨rs, cache2, cnt⟩
              dsimp only
              rw [hLe]
              simp

/-- Membership in a cache, phrased through the lookup used by `apply`. -/
theorem lookupC_ne_none_iff (cache : List (Nat × RVal)) (i : Nat) :
    lookupC cache i ≠ none ↔ i ∈ cache.map Prod.fst := by
  induction cache with
  | nil => simp [lookupC]
  | cons p rest ih =>
    rcases p with ⟨a, b⟩
    by_cases h : a = i
    · subst h
      simp [lookupC, List.find?]
    · have hstep : lookupC ((a, b) :: rest) i = lookupC rest i := by
        simp [lookupC, List.find?, h]
      have h2 : ¬ i = a := fun hh => h hh.symm
      rw [hstep]
      simp [h2, ih]

/-- A cache identity is a cached tracked-variable identity when it can be
looked up and its heap node is a tracked variable. -/
theorem mem_cachedVtIds (store : Store) (cache : List (Nat × RVal)) (i : Nat) :
    i ∈ cachedVtIds store cache ↔
      lookupC cache i ≠ none ∧ isVtNode (lookupS store i) = true := by
  simp [cachedVtIds, List.mem_filter, lookupC_ne_none_iff]

/-- Prepending one cache entry adds its identity to the cached
tracked-variable set exactly when its heap node is a tracked variable. -/
theorem cachedVtIds_cons (store : Store) (k : Nat) (x : RVal)
    (cache : List (Nat × RVal)) :
    cachedVtIds store ((k, x) :: cache)
      = (if isVtNode (lookupS store k) then insert k (cachedVtIds store cache)
         else cachedVtIds store cache) := by
  by_cases h : isVtNode (lookupS store k)
  · simp [cachedVtIds, List.filter_cons, h]
  · simp [cachedVtIds, List.filter_cons, h]

/-- From a depth bound on a reference, every child of the node it points to
is depth-bounded one lower. -/
theorem depthOk_children (store : Store) (n i : Nat) (obj : PyObj)
    (hS : lookupS store i = some obj)
    (h : depthOk store (n + 1) (.ref i) = true) :
    ∀ c ∈ childrenOf obj, depthOk store n c = true := by
  rw [depthOk, hS] at h
  cases obj with
  | vtNode fs => simpa [childrenOf] using h
  | listNode es => simpa [childrenOf] using h

/-- Walking a reachability path only lowers the depth bound, strictly so for
a path of at least one step. -/
theorem refReach_depthOk (store : Store) {v : PyRef} {j : Nat}
    (hr : RefReach store v j) :
    ∀ n, depthOk store n v = true →
      ∃ m, depthOk store m (.ref j) = true ∧ m ≤ n ∧ (v = .ref j ∨ m < n) := by
  induction hr with
  | self i =>
    intro n h
    exact ⟨n, h, le_refl n, Or.inl rfl⟩
  | step i j obj c hS hc hsub ih =>
    intro n h
    cases n with
    | zero => simp [depthOk] at h
    | succ n =>
      have hc2 : depthOk store n c = true := depthOk_children store n i obj hS h c hc
      obtain ⟨m, hm, hle, _⟩ := ih n hc2
      exact ⟨m, hm, le_trans hle (Nat.le_succ n), Or.inr (Nat.lt_succ_of_le hle)⟩

/-- A depth-bounded node is never reachable from its own children: a cycle
would give arbitrarily long reference chains. -/
theorem no_self_reach (store : Store) (i : Nat) (obj : PyObj)
    (hS : lookupS store i = some obj) (c : PyRef) (hc : c ∈ childrenOf obj)
    (hr : RefReach store c i) :
    ∀ n, depthOk store n (.ref i) ≠ true := by
  intro n
  induction n using Nat.strong_induction_on with
  | _ n ih =>
    intro h
    cases n with
    | zero => simp [depthOk] at h
    | succ n =>
      have hcd : depthOk store n c = true := depthOk_children store n i obj hS h c hc
      obtain ⟨m, hm, hle, _⟩ := refReach_depthOk store hr n hcd
      exact ih m (Nat.lt_succ_of_le hle) hm

/-- A cache hit: `apply` on an already-rewritten node returns the cached
result unchanged, touches nothing, and invokes `fn` zero times — this is the
universal form of "both occurrences of a shared sub-node map to one shared
result". -/
theorem applyV_cache_hit (fn : RVal → RVal) (store : Store) (fuel i : Nat)
    (cache : List (Nat × RVal)) (r : RVal) (h : lookupC cache i = some r) :
    applyV fn store (fuel + 1) (.ref i) cache = some (r, cache, 0) := by
  rw [applyV, h]

/-- Every successful rewrite of a referenced node leaves its own result in
the returned cache under the node's identity, so later occurrences share
it. -/
theorem applyV_records (fn : RVal → RVal) (store : Store) (fuel i : Nat)
    (cache cache' : List (Nat × RVal)) (r : RVal) (cnt : Nat)
    (h : applyV fn store fuel (.ref i) cache = some (r, cache', cnt)) :
    lookupC cache' i = some r := by
  cases fuel with
  | zero => simp [applyV] at h
  | succ fuel =>
    rw [applyV] at h
    cases hC : lookupC cache i with
    | some r0 =>
      rw [hC] at h
      simp at h
      obtain ⟨h1, h2, -⟩ := h
      rw [← h2, hC, h1]
    | none =>
      rw [hC] at h
      cases hS : lookupS store i with
      | none =>
        rw [hS] at h
        simp at h
      | some obj =>
        rw [hS] at h
        cases obj with
        | vtNode fs =>
          dsimp only at h
          cases hL : applyL fn store fuel fs cache with
          | none => rw [hL] at h; simp at h
          | some res =>
            rcases res with ⟨rs, cache2, c⟩
            rw [hL] at h
            simp at h
            obtain ⟨h1, h2, -⟩ := h
            rw [← h2]
            simp [lookupC, List.find?, h1]
        | listNode es =>
          dsimp only at h
          cases hL : applyL fn store fuel es cache with
          | none => rw [hL] at h; simp at h
          | some res =>
            rcases res with ⟨rs, cache2, c⟩
            rw [hL] at h
            simp at h
            obtain ⟨h1, h2, -⟩ := h
            rw [← h2]
            simp [lookupC, List.find?, h1]

/-- The memoization accounting, proved for every acyclic store: a successful
rewrite only caches identities reachable from its argument, and the number
of `fn` invocations equals the number of distinct tracked-variable
identities newly added to the cache — each distinct tracked-variable node is
rewritten exactly once, cache hits contributing zero. -/
theorem applyV_count (fn : RVal → RVal) (store : Store)
    (hA : StoreAcyclic store) :
    ∀ fuel : Nat,
      (∀ (v : PyRef) (cache cache' : List (Nat × RVal)) (r : RVal) (cnt : Nat),
        applyV fn store fuel v cache = some (r, cache', cnt) →
          (∀ j, lookupC cache' j ≠ none →
              lookupC cache j ≠ none ∨ RefReach store v j)
          ∧ cnt + (cachedVtIds store cache).card
              = (cachedVtIds store cache').card)
      ∧ (∀ (l : List PyRef) (cache cache' : List (Nat × RVal))
          (rs : List RVal) (cnt : Nat),
          applyL fn store fuel l cache = some (rs, cache', cnt) →
            (∀ j, lookupC cache' j ≠ none →
                lookupC cache j ≠ none ∨ ∃ c ∈ l, RefReach store c j)
            ∧ cnt + (cachedVtIds store cache).card
                = (cachedVtIds store cache').card) := by
  intro fuel
  induction fuel with
  | zero =>
    constructor
    · intro v cache cache' r cnt h
      simp [applyV] at h
    · intro l cache cache' rs cnt h
      cases l with
      | nil =>
        rw [applyL] at h
        simp at h
        obtain ⟨-, h2, h3⟩ := h
        subst h2
        subst h3
        exact ⟨fun j hj => Or.inl hj, by omega⟩
      | cons c rest =>
        rw [applyL] at h
        rw [show applyV fn store 0 c cache = none from by simp [applyV]] at h
        simp at h
  | succ fuel ih =>
    have hV : ∀ (v : PyRef) (cache cache' : List (Nat × RVal)) (r : RVal)
        (cnt : Nat),
        applyV fn store (fuel + 1) v cache = some (r, cache', cnt) →
          (∀ j, lookupC cache' j ≠ none →
              lookupC cache j ≠ none ∨ RefReach store v j)
          ∧ cnt + (cachedVtIds store cache).card
              = (cachedVtIds store cache').card := by
      intro v cache cache' r cnt h
      cases v with
      | raw m =>
        rw [applyV] at h
        simp at h
        obtain ⟨-, h2, h3⟩ := h
        subst h2
        subst h3
        exact ⟨fun j hj => Or.inl hj, by omega⟩
      | ref i =>
        rw [applyV] at h
        cases hC : lookupC cache i with
        | some r0 =>
          rw [hC] at h
          simp at h
          obtain ⟨-, h2, h3⟩ := h
          subst h2
          subst h3
          exact ⟨fun j hj => Or.inl hj, by omega⟩
        | none =>
          rw [hC] at h
          cases hS : lookupS store i with
          | none =>
            rw [hS] at h
            simp at h
          | some obj =>
            rw [hS] at h
            cases obj with
            | vtNode fs =>
              dsimp only at h
              cases hL : applyL fn store fuel fs cache with
              | none => rw [hL] at h; simp at h
              | some res =>
                rcases res with ⟨rs0, cache2, c0⟩
                rw [hL] at h
                simp at h
                obtain ⟨-, h2, h3⟩ := h
                have ihL := (ih.2) fs cache cache2 rs0 c0 hL
                constructor
                · intro j hj
                  rw [← h2] at hj
                  by_cases hji : j = i
                  · subst hji
                    exact Or.inr (RefReach.self j)
                  · have hji2 : ¬ i = j := fun hh => hji hh.symm
                    have hj2 : lookupC cache2 j ≠ none := by
                      rw [show lookupC ((i, fn (RVal.rvt rs0)) :: cache2) j
                          = lookupC cache2 j from by
                        simp [lookupC, List.find?, hji2]] at hj
                      exact hj
                    rcases ihL.1 j hj2 with hc | ⟨c, hcm, hcr⟩
                    · exact Or.inl hc
                    · exact Or.inr (RefReach.step i j (.vtNode fs) c hS
                        (by simpa [childrenOf] using hcm) hcr)
                · have hfresh : i ∉ cachedVtIds store cache2 := by
                    intro hmem
                    have h4 := (mem_cachedVtIds store cache2 i).mp hmem
                    rcases ihL.1 i h4.1 with hc | ⟨c, hcm, hcr⟩
                    · exact hc hC
                    · obtain ⟨n, hn⟩ := hA i (.vtNode fs) hS
                      exact no_self_reach store i (.vtNode fs) hS c
                        (by simpa [childrenOf] using hcm) hcr n hn
                  rw [← h2, cachedVtIds_cons,
                    if_pos (by simp [isVtNode, hS]),
                    Finset.card_insert_of_not_mem hfresh]
                  omega
            | listNode es =>
              dsimp only at h
              cases hL : applyL fn store fuel es cache with
              | none => rw [hL] at h; simp at h
              | some res =>
                rcases res with ⟨rs0, cache2, c0⟩
                rw [hL] at h
                simp at h
                obtain ⟨-, h2, h3⟩ := h
                have ihL := (ih.2) es cache cache2 rs0 c0 hL
                constructor
                · intro j hj
                  rw [← h2] at hj
                  by_cases hji : j = i
                  · subst hji
                    exact Or.inr (RefReach.self j)
                  · have hji2 : ¬ i = j := fun hh => hji hh.symm
                    have hj2 : lookupC cache2 j ≠ none := by
                      rw [show lookupC ((i, RVal.rlist rs0) :: cache2) j
                          = lookupC cache2 j from by
                        simp [lookupC, List.find?, hji2]] at hj
                      exact hj
                    rcases ihL.1 j hj2 with hc | ⟨c, hcm, hcr⟩
                    · exact Or.inl hc
                    · exact Or.inr (RefReach.step i j (.listNode es) c hS
                        (by simpa [childrenOf] using hcm) hcr)
                · rw [← h2, cachedVtIds_cons,
                    if_neg (by simp [isVtNode, hS])]
                  omega
    have hLfull : ∀ (l : List PyRef) (cache cache' : List (Nat × RVal))
        (rs : List RVal) (cnt : Nat),
        applyL fn store (fuel + 1) l cache = some (rs, cache', cnt) →
          (∀ j, lookupC cache' j ≠ none →
              lookupC cache j ≠ none ∨ ∃ c ∈ l, RefReach store c j)
          ∧ cnt + (cachedVtIds store cache).card
              = (cachedVtIds store cache').card := by
      intro l
      induction l with
      | nil =>
        intro cache cache' rs cnt h
        rw [applyL] at h
        simp at h
        obtain ⟨-, h2, h3⟩ := h
        subst h2
        subst h3
        exact ⟨fun j hj => Or.inl hj, by omega⟩
      | cons c rest ihrest =>
        intro cache cache' rs cnt h
        rw [applyL] at h
        cases hV1 : applyV fn store (fuel + 1) c cache with
        | none => rw [hV1] at h; simp at h
        | some res1 =>
          rcases res1 with ⟨r1, cache2, c1⟩
          rw [hV1] at h
          dsimp only at h
          cases hL2 : applyL fn store (fuel + 1) rest cache2 with
          | none => rw [hL2] at h; simp at h
          | some res2 =>
            rcases res2 with ⟨rs2, cache3, c2⟩
            rw [hL2] at h
            simp at h
            obtain ⟨-, h2, h3⟩ := h
            subst h2
            have hVc := hV c cache cache2 r1 c1 hV1
            have hLr := ihrest cache2 cache3 rs2 c2 hL2
            constructor
            · intro j hj
              rcases hLr.1 j hj with hc2 | ⟨cc, hccm, hccr⟩
              · rcases hVc.1 j hc2 with hc | hr
                · exact Or.inl hc
                · exact Or.inr ⟨c, List.mem_cons_self c rest, hr⟩
              · exact Or.inr ⟨cc, List.mem_cons_of_mem _ hccm, hccr⟩
            · have e1 := hVc.2
              have e2 := hLr.2
              omega
    exact ⟨hV, hLfull⟩

/-- Claim C5, amended: `VariableTracker.apply` memoizes by original-node
identity, but records the cache entry for a node only *after* recursing into
its children. On every depth-bounded (acyclic) structure — shared
sub-references included — the rewrite terminates; on every acyclic store the
rewrite invokes `fn` exactly once per distinct tracked-variable node (the
invocation count equals the number of distinct tracked-variable identities
newly added to the cache), every successful rewrite of a node records its
result in the cache under the node's identity, and any occurrence of an
already-rewritten node returns that identical cached result with zero
further `fn` invocations — both occurrences of a shared sub-node map to one
shared result. On the concrete diamond the rewrite evaluates accordingly.
Cyclic structures are not handled (see the counterexample). -/
theorem apply_memo_spec :
    (∀ (fn : RVal → RVal) (store : Store) (n : Nat) (v : PyRef)
        (cache : List (Nat × RVal)), depthOk store n v = true →
        applyV fn store (n + 1) v cache ≠ none)
    ∧ (∀ (fn : RVal → RVal) (store : Store) (fuel i : Nat)
        (cache : List (Nat × RVal)) (r : RVal), lookupC cache i = some r →
        applyV fn store (fuel + 1) (.ref i) cache = some (r, cache, 0))
    ∧ (∀ (fn : RVal → RVal) (store : Store) (fuel i : Nat)
        (cache cache' : List (Nat × RVal)) (r : RVal) (cnt : Nat),
        applyV fn store fuel (.ref i) cache = some (r, cache', cnt) →
        lookupC cache' i = some r)
    ∧ (∀ (fn : RVal → RVal) (store : Store), StoreAcyclic store →
        ∀ (fuel : Nat) (v : PyRef) (cache cache' : List (Nat × RVal))
          (r : RVal) (cnt : Nat),
          applyV fn store fuel v cache = some (r, cache', cnt) →
          cnt + (cachedVtIds store cache).card
            = (cachedVtIds store cache').card)
    ∧ applyV (fun r => r) diamondStore 3 (.ref 0) []
      = some (.rlist [.rvt [.rraw 7], .rvt [.rraw 7]],
          [(0, .rlist [.rvt [.rraw 7], .rvt [.rraw 7]]),
            (1, .rvt [.rraw 7])], 1) := by
  refine ⟨?_, ?_, ?_, ?_, ?_⟩
  · exact fun fn store n v cache h => applyV_depthOk_ne_none n fn store v cache h
  · exact fun fn store fuel i cache r h => applyV_cache_hit fn store fuel i cache r h
  · exact fun fn store fuel i cache cache' r cnt h =>
      applyV_records fn store fuel i cache cache' r cnt h
  · exact fun fn store hA fuel v cache cache' r cnt h =>
      ((applyV_count fn store hA fuel).1 v cache cache' r cnt h).2
  · simp [applyV, applyL, lookupC, lookupS, diamondStore]

/-- Witness for C5 at a concrete input: a store with one tracked-variable
node holding one raw field. The termination part applies at depth bound 1;
the cache-hit part returns the cached result with zero invocations; the
recording part extracts the cached entry from the concrete successful run;
and the count part certifies that the one `fn` invocation of that run added
exactly one distinct tracked-variable identity to the cache. -/
theorem apply_memo_spec_witness :
    applyV (fun r => r) [(0, PyObj.vtNode [PyRef.raw 3])] 2 (.ref 0) [] ≠ none
    ∧ applyV (fun r => r) [(0, PyObj.vtNode [PyRef.raw 3])] 5 (.ref 0)
        [(0, RVal.rvt [RVal.rraw 3])]
      = some (RVal.rvt [RVal.rraw 3], [(0, RVal.rvt [RVal.rraw 3])], 0)
    ∧ lookupC [(0, RVal.rvt [RVal.rraw 3])] 0 = some (RVal.rvt [RVal.rraw 3])
    ∧ 1 + (cachedVtIds [(0, PyObj.vtNode [PyRef.raw 3])] []).card
      = (cachedVtIds [(0, PyObj.vtNode [PyRef.raw 3])]
          [(0, RVal.rvt [RVal.rraw 3])]).card := by
  have hsucc : applyV (fun r => r) [(0, PyObj.vtNode [PyRef.raw 3])] 2
      (.ref 0) []
      = some (RVal.rvt [RVal.rraw 3], [(0, RVal.rvt [RVal.rraw 3])], 1) := by
    simp [applyV, applyL, lookupC, lookupS]
  have hacyc : StoreAcyclic [(0, PyObj.vtNode [PyRef.raw 3])] := by
    intro i obj hS
    by_cases h0 : (0 : Nat) = i
    · rw [← h0]
      exact ⟨1, rfl⟩
    · exfalso
      simp [lookupS, List.find?, h0] at hS
  refine ⟨?_, ?_, ?_, ?_⟩
  · exact apply_memo_spec.1 (fun r => r) [(0, PyObj.vtNode [PyRef.raw 3])] 1
      (.ref 0) [] (by rfl)
  · exact apply_memo_spec.2.1 (fun r => r) [(0, PyObj.vtNode [PyRef.raw 3])]
      4 0 [(0, RVal.rvt [RVal.rraw 3])] (RVal.rvt [RVal.rraw 3]) rfl
  · exact apply_memo_spec.2.2.1 (fun r => r) [(0, PyObj.vtNode [PyRef.raw 3])]
      2 0 [] [(0, RVal.rvt [RVal.rraw 3])] (RVal.rvt [RVal.rraw 3]) 1 hsucc
  · exact apply_memo_spec.2.2.2.1 (fun r => r)
      [(0, PyObj.vtNode [PyRef.raw 3])] hacyc 2 (.ref 0) []
      [(0, RVal.rvt [RVal.rraw 3])] (RVal.rvt [RVal.rraw 3]) 1 hsucc

end TorchDynamo
